import Mathlib

/-!
# Verification of the yvote tracker (`track_yvote_v3_1.py`)

A shallow embedding of the calibration engine of the yvote dashboard
repository: the extractor (`extract_ratiovotes`), the calibrator
(`calibrate_and_calculate_votes`), the transport fallback logic
(`fetch_raw`), the snapshot persistence (`save_state` / `load_state`),
and the poll loop body (`main`).  Percentages are modelled as rationals,
vote counts as integers, and Python dictionaries as insertion-ordered
association lists, matching the insertion/update semantics of `dict`.
-/

namespace YVote

/-- Python's built-in `round` on a real value: round half to even
(banker's rounding), as used by `int(round(...))` in the tracker. -/
def pyRound (q : ℚ) : ℤ :=
  let f : ℤ := ⌊q⌋
  let r : ℚ := q - f
  if r < 1/2 then f
  else if 1/2 < r then f + 1
  else if f % 2 = 0 then f else f + 1

/-- Python's `round(x, 6)`: round to 6 fractional digits, half to even.
The extractor stores percentages at this precision. -/
def round6 (q : ℚ) : ℚ := (pyRound (q * 1000000) : ℚ) / 1000000

/-- Python's `str.upper()` (ASCII case mapping), used to build the
case-normalized candidate key. -/
def pyUpper (s : String) : String := ⟨s.data.map Char.toUpper⟩

/-- Python's `str.strip()`: drop leading and trailing whitespace. -/
def pyStrip (s : String) : String :=
  ⟨((s.data.dropWhile Char.isWhitespace).reverse.dropWhile Char.isWhitespace).reverse⟩

/-! ## Insertion-ordered dictionaries

Python `dict`s preserve insertion order: updating an existing key keeps
its position, inserting a new key appends it at the end.  We model them
as association lists with exactly those semantics. -/

/-- Dictionary lookup, `d.get(k)` returning `None` when absent. -/
def getA {β : Type} : List (String × β) → String → Option β
  | [], _ => none
  | (k', v) :: m, k => if k' = k then some v else getA m k

/-- Dictionary lookup with a default, Python's `d.get(k, dflt)`. -/
def getD {β : Type} : List (String × β) → String → β → β
  | [], _, d => d
  | (k', v) :: m, k, d => if k' = k then v else getD m k d

/-- Dictionary write `d[k] = v`: update in place when the key exists
(keeping its position), append at the end otherwise. -/
def setA {β : Type} : List (String × β) → String → β → List (String × β)
  | [], k, v => [(k, v)]
  | (k', v') :: m, k, v => if k' = k then (k, v) :: m else (k', v') :: setA m k v

/-! ## Data model -/

/-- One deduplicated candidate entry held by the extractor's
`candidates` dict: display name (canonical casing) and percentage. -/
structure Entry where
  name : String
  percent : ℚ
deriving DecidableEq, Repr

/-- A `CandidateObservation`: one extractor output row per poll cycle
per candidate, `{name, percent, rank}`. -/
structure Obs where
  name : String
  percent : ℚ
  rank : ℕ
deriving DecidableEq, Repr

/-- One calibrated result row `{rank, name, percent, votes}`. -/
structure Row where
  rank : ℕ
  name : String
  percent : ℚ
  votes : ℤ
deriving DecidableEq, Repr

/-- The tracker's cross-cycle global state: `current_total` and the
`candidate_votes` dict (`{name: votes}`). -/
structure CalState where
  current_total : ℤ
  candidate_votes : List (String × ℤ)
deriving DecidableEq, Repr

/-- `INITIAL_TOTAL_ESTIMATE` from the configuration section. -/
def INITIAL_TOTAL_ESTIMATE : ℤ := 1017428

/-! ## Extractor

`extract_ratiovotes` scans the raw text with the regex
`"name":"([^"]+)".*?"ratioVotes":([0-9.]+)` and then deduplicates,
sorts and ranks the matches.  The regex/float-parse front end is the
textual boundary of the system; we model its output directly as the
list of successfully parsed `(name, percent)` pairs and embed
everything the function does from that point on. -/

/-- One iteration of the dedup loop: strip the name, round the
percentage to 6 digits, and store under the uppercased key, keeping
the entry with the strictly highest percentage on duplicates. -/
def dedupStep (acc : List (String × Entry)) (p : String × ℚ) : List (String × Entry) :=
  let name := pyStrip p.1
  let pct := round6 p.2
  let key := pyUpper name
  match getA acc key with
  | none => setA acc key ⟨name, pct⟩
  | some e => if e.percent < pct then setA acc key ⟨name, pct⟩ else acc

/-- Stable insertion into a list sorted so that an element is placed
after every element that strictly precedes it (`prec y x` means `y`
stays ahead of `x`). -/
def sInsert {α : Type} (prec : α → α → Prop) [DecidableRel prec] (x : α) :
    List α → List α
  | [] => [x]
  | y :: ys => if prec y x then y :: sInsert prec x ys else x :: y :: ys

/-- Stable sort (the model of Python's stable `list.sort`): each
element is inserted in front of the later elements it does not
strictly follow, so equal elements keep their original order. -/
def sSort {α : Type} (prec : α → α → Prop) [DecidableRel prec] : List α → List α
  | [] => []
  | x :: xs => sInsert prec x (sSort prec xs)

/-- Comparator for `result.sort(key=lambda x: x["percent"], reverse=True)`:
`y` strictly precedes `x` when `y`'s percentage is strictly larger. -/
def pctPrec (y x : Entry) : Prop := x.percent < y.percent

instance : DecidableRel pctPrec := fun y x =>
  inferInstanceAs (Decidable (x.percent < y.percent))

/-- `for i, c in enumerate(result, 1): c["rank"] = i` — attach ranks
`i, i+1, ...` down the sorted list. -/
def addRanks : List Entry → ℕ → List Obs
  | [], _ => []
  | e :: es, i => ⟨e.name, e.percent, i⟩ :: addRanks es (i + 1)

/-- `extract_ratiovotes`, from the parsed `(name, percent)` matches:
deduplicate by uppercased name keeping the highest percentage, sort by
percentage descending (stable), and assign ranks `1..N`. -/
def extract_ratiovotes (found : List (String × ℚ)) : List Obs :=
  let candidates := found.foldl dedupStep []
  let result := sSort pctPrec (candidates.map (·.2))
  addRanks result 1

/-! ## Calibrator (`calibrate_and_calculate_votes`) -/

/-- `int(round(percent / 100 * current_total))`: the naive vote
estimate for one candidate. -/
def naiveVotes (total : ℤ) (percent : ℚ) : ℤ := pyRound (percent / 100 * total)

/-- The result row computed for one observation in the first pass:
naive estimate floored by `candidate_votes.get(name, 0)` as the state
stood at the start of the call. -/
def mkRow (s : CalState) (c : Obs) : Row :=
  ⟨c.rank, c.name, c.percent,
    max (naiveVotes s.current_total c.percent) (getD s.candidate_votes c.name 0)⟩

/-- First pass: build the `calculated_votes` dict, applying the
per-candidate monotonicity floor `max(votes, candidate_votes.get(name, 0))`
against the state as it was at the start of the call. -/
def pass1 (cd : List Obs) (s : CalState) : List (String × Row) :=
  cd.foldl (fun acc c => setA acc c.name (mkRow s c)) []

/-- `for name, data in calculated_votes.items(): candidate_votes[name] = data["votes"]`. -/
def writeVotes (cv : List (String × ℤ)) (ps : List (String × Row)) : List (String × ℤ) :=
  ps.foldl (fun m p => setA m p.1 p.2.votes) cv

/-- `total_votes = sum(data["votes"] for data in calculated_votes.values())`. -/
def totalVotes (ps : List (String × Row)) : ℤ := (ps.map (·.2.votes)).sum

/-- `total_percentages = sum(c["percent"] for c in candidates_data)`. -/
def totalPct (cd : List Obs) : ℚ := (cd.map (·.percent)).sum

/-- `implied_total = int(round(total_votes / total_percentages * 100))`. -/
def impliedTotal (cd : List Obs) (s : CalState) : ℤ :=
  pyRound ((totalVotes (pass1 cd s) : ℚ) / totalPct cd * 100)

/-- `calculated_votes[name]["votes"] = votes`: overwrite the votes
field of an existing row (every observed name is present, having been
inserted by the first pass). -/
def updRowVotes (m : List (String × Row)) (k : String) (v : ℤ) : List (String × Row) :=
  m.map (fun p => if p.1 = k then (p.1, { p.2 with votes := v }) else p)

/-- One iteration of the second (recalculation) pass, run when the
implied total does not exceed the retained total: recompute the naive
estimate under the retained total, re-apply the floor against the
continually updated `candidate_votes`, and store the result in both
dicts. -/
def pass2Step (total : ℤ) (st : List (String × Row) × List (String × ℤ)) (c : Obs) :
    List (String × Row) × List (String × ℤ) :=
  let votes := max (naiveVotes total c.percent) (getD st.2 c.name 0)
  (updRowVotes st.1 c.name votes, setA st.2 c.name votes)

/-- Comparator for `result.sort(key=lambda x: x["rank"])`. -/
def rankPrec (y x : Row) : Prop := y.rank < x.rank

instance : DecidableRel rankPrec := fun y x =>
  inferInstanceAs (Decidable (y.rank < x.rank))

/-- `calibrate_and_calculate_votes`: compute floored votes from the
percentages, persist them into `candidate_votes`, then either adopt a
strictly larger implied total, or keep the retained total and rerun
the estimate under it; emit the rows sorted by rank. -/
def calibrate_and_calculate_votes (cd : List Obs) (s : CalState) :
    List Row × CalState :=
  let calcv := pass1 cd s
  let cv1 := writeVotes s.candidate_votes calcv
  let tp := totalPct cd
  if 0 < tp then
    let implied := impliedTotal cd s
    if s.current_total < implied then
      (sSort rankPrec (calcv.map (·.2)), ⟨implied, cv1⟩)
    else
      let total2 := max s.current_total implied
      let st2 := cd.foldl (pass2Step total2) (calcv, cv1)
      (sSort rankPrec (st2.1.map (·.2)), ⟨total2, st2.2⟩)
  else
    (sSort rankPrec (calcv.map (·.2)), ⟨s.current_total, cv1⟩)

/-- The calibrator with its second (recalculation) pass removed: the
first pass alone decides both the emitted rows and the stored votes.
Used to state that the second pass is an identity whenever the implied
total does not exceed the retained total. -/
def calibrate_onePass (cd : List Obs) (s : CalState) : List Row × CalState :=
  let calcv := pass1 cd s
  let cv1 := writeVotes s.candidate_votes calcv
  let tp := totalPct cd
  if 0 < tp then
    let implied := impliedTotal cd s
    if s.current_total < implied then
      (sSort rankPrec (calcv.map (·.2)), ⟨implied, cv1⟩)
    else
      (sSort rankPrec (calcv.map (·.2)), ⟨max s.current_total implied, cv1⟩)
  else
    (sSort rankPrec (calcv.map (·.2)), ⟨s.current_total, cv1⟩)

/-! ## Transport (`fetch_raw`)

The HTTP layer is the system boundary: each endpoint's outcome is
modelled as `none` when the request raises (connection error, or the
session's bounded retry sequence is exhausted and raises), or
`some response` for a delivered HTTP response. -/

/-- A delivered HTTP response: status code and body text. -/
structure HttpResponse where
  status : ℕ
  body : String
deriving DecidableEq, Repr

/-- `r.status_code == 200 and r.text.strip()`: the success test applied
to both the real endpoint and the proxy. -/
def respOk (r : HttpResponse) : Prop := r.status = 200 ∧ pyStrip r.body ≠ ""

instance : DecidablePred respOk := fun r =>
  inferInstanceAs (Decidable (r.status = 200 ∧ pyStrip r.body ≠ ""))

/-- The `except` branch of `fetch_raw`: try the proxy endpoint, raise
unless it answers 200 with a non-empty body. -/
def tryProxy : Option HttpResponse → Except Unit String
  | none => .error ()
  | some rp => if respOk rp then .ok rp.body else .error ()

/-- `fetch_raw`, with the Boolean recording whether the proxy endpoint
was contacted: return the primary body when the primary answers 200
with a non-empty body, otherwise fall back to the proxy. -/
def fetch_raw (primary fallback : Option HttpResponse) : Except Unit String × Bool :=
  match primary with
  | some r => if respOk r then (.ok r.body, false) else (tryProxy fallback, true)
  | none => (tryProxy fallback, true)

/-- The primary path failed (request raised, non-200 status, or empty
body), so `fetch_raw` moves on to the proxy. -/
def primaryFails : Option HttpResponse → Prop
  | none => True
  | some r => ¬ respOk r

/-- The proxy path failed as well, so `fetch_raw` raises. -/
def proxyFails : Option HttpResponse → Prop
  | none => True
  | some rp => ¬ respOk rp

/-! ## Poll loop (`main`)

One iteration of the `while True` body, abstracted over the cycle's
input: either the fetch raises (every exception is caught and falls
through to the `time.sleep(INTERVAL)` at the end of the loop body), or
the fetch delivers raw text whose parsed matches are given.  The
Boolean records whether `time.sleep(INTERVAL)` runs before the next
iteration: the `continue` taken when extraction yields zero candidates
jumps straight to the next iteration, skipping the sleep. -/

/-- The input that drives one poll-loop iteration. -/
inductive CycleInput where
  | fetchFail
  | rawData (found : List (String × ℚ))
deriving DecidableEq, Repr

/-- One iteration of `main`'s loop body: the resulting state and
whether the fixed `INTERVAL` sleep executes before the next fetch. -/
def poll_cycle (inp : CycleInput) (s : CalState) : CalState × Bool :=
  match inp with
  | .fetchFail => (s, true)
  | .rawData found =>
    let cd := extract_ratiovotes found
    if cd = [] then (s, false)
    else ((calibrate_and_calculate_votes cd s).2, true)

/-! ## Persistence (`save_state` / `load_state`)

The snapshot file holds a JSON document; the textual encode/parse is
Python's `json` library (the system boundary), so the snapshot is
modelled as the JSON value itself. -/

/-- A JSON value, as produced by `json.dumps`/`json.loads`. -/
inductive Json where
  | null
  | num (n : ℤ)
  | str (s : String)
  | arr (elems : List Json)
  | obj (fields : List (String × Json))

/-- First-match field lookup in a JSON object, `state.get(key, dflt)`
returning `none` when the key is absent. -/
def jLookup : List (String × Json) → String → Option Json
  | [], _ => none
  | (k', v) :: fs, k => if k' = k then some v else jLookup fs k

/-- `save_state`: the JSON document written to `state_v3.json`,
`{"current_total": ..., "candidate_votes": {...}}`. -/
def save_state (total : ℤ) (cv : List (String × ℤ)) : Json :=
  .obj [("current_total", .num total),
        ("candidate_votes", .obj (cv.map (fun p => (p.1, .num p.2))))]

/-- Read the `candidate_votes` object back as a name-to-votes map, per
the data model (votes are integers). -/
def decodeVotes : List (String × Json) → Option (List (String × ℤ))
  | [] => some []
  | (k, .num v) :: rest => (decodeVotes rest).map (fun l => (k, v) :: l)
  | _ => none

/-- `load_state`: read the snapshot back, defaulting a missing
`current_total` to `INITIAL_TOTAL_ESTIMATE` and missing
`candidate_votes` to the empty map; a snapshot that is not an object
of the data model's shape is treated as malformed (`none`), which the
caller handles by keeping the defaults. -/
def load_state (j : Json) : Option (ℤ × List (String × ℤ)) :=
  match j with
  | .obj fields =>
    match jLookup fields "current_total", jLookup fields "candidate_votes" with
    | some (.num t), some (.obj votes) => (decodeVotes votes).map (fun l => (t, l))
    | some (.num t), none => some (t, [])
    | none, some (.obj votes) => (decodeVotes votes).map (fun l => (INITIAL_TOTAL_ESTIMATE, l))
    | none, none => some (INITIAL_TOTAL_ESTIMATE, [])
    | _, _ => none
  | _ => none

/-- The keys of a dictionary, in insertion order. -/
def keysOf {β : Type} (m : List (String × β)) : List String := m.map Prod.fst

/-- Pointwise domination of vote dictionaries: every name's stored
votes (0 when absent) in `m` is at most its votes in `m'`. -/
def cvLe (m m' : List (String × ℤ)) : Prop :=
  ∀ n : String, getD m n 0 ≤ getD m' n 0

/-- The states traversed by a sequence of calibration calls: the
observation history, starting from `s` and feeding each cycle's
observations to `calibrate_and_calculate_votes`. -/
def runTrace : List (List Obs) → CalState → List CalState
  | [], s => [s]
  | cd :: rest, s => s :: runTrace rest (calibrate_and_calculate_votes cd s).2

/-- Forget the rank of an observation, keeping name and percentage. -/
def toEntry (o : Obs) : Entry := ⟨o.name, o.percent⟩

/-- The case-normalized dedup key of one raw `(name, percent)` match:
`name.strip().upper()`. -/
def foundKey (p : String × ℚ) : String := pyUpper (pyStrip p.1)

/-- The invariant of the extractor's dedup dict after consuming the
matches in `seen`: keys are distinct; each entry's key is its display
name uppercased; each entry's percentage dominates every percentage
seen for its key and is attained by one of them (with its display
name); and every seen key is present. -/
def DedupInv (m : List (String × Entry)) (seen : List (String × ℚ)) : Prop :=
  (keysOf m).Nodup ∧
  (∀ q ∈ m, pyUpper q.2.name = q.1) ∧
  (∀ q ∈ m, ∀ p ∈ seen, foundKey p = q.1 → round6 p.2 ≤ q.2.percent) ∧
  (∀ q ∈ m, ∃ p ∈ seen, foundKey p = q.1 ∧ pyStrip p.1 = q.2.name ∧ round6 p.2 = q.2.percent) ∧
  (∀ p ∈ seen, foundKey p ∈ keysOf m)

/-! ## Association-list dictionary lemmas -/

@[simp] theorem keysOf_nil {β : Type} : keysOf ([] : List (String × β)) = [] := rfl

@[simp] theorem keysOf_cons {β : Type} (q : String × β) (m : List (String × β)) :
    keysOf (q :: m) = q.1 :: keysOf m := rfl

theorem mem_keysOf {β : Type} {m : List (String × β)} {k : String} :
    k ∈ keysOf m ↔ ∃ v, (k, v) ∈ m := by
  induction m with
  | nil => simp
  | cons q m ih =>
    rcases q with ⟨k', v'⟩
    simp [ih]
    aesop

theorem getA_setA_self {β : Type} (m : List (String × β)) (k : String) (v : β) :
    getA (setA m k v) k = some v := by
  induction m with
  | nil => simp [setA, getA]
  | cons q m ih =>
    by_cases h : q.1 = k
    · simp [setA, h, getA]
    · simp [setA, h, getA, ih]

theorem getA_setA_ne {β : Type} (m : List (String × β)) {k k' : String} (v : β)
    (h : k' ≠ k) : getA (setA m k' v) k = getA m k := by
  induction m with
  | nil => simp [setA, getA, h]
  | cons q m ih =>
    by_cases hq : q.1 = k'
    · simp [setA, hq, getA, h, hq ▸ h]
    · simp [setA, hq, getA, ih]

theorem getD_eq_getA {β : Type} (m : List (String × β)) (k : String) (d : β) :
    getD m k d = (getA m k).getD d := by
  induction m with
  | nil => simp [getD, getA]
  | cons q m ih =>
    by_cases h : q.1 = k
    · simp [getD, getA, h]
    · simp [getD, getA, h, ih]

theorem getA_eq_none_iff {β : Type} (m : List (String × β)) (k : String) :
    getA m k = none ↔ k ∉ keysOf m := by
  induction m with
  | nil => simp [getA]
  | cons q m ih =>
    by_cases h : q.1 = k
    · simp [getA, h]
    · simp [getA, h, ih, Ne.symm h]

theorem getA_mem {β : Type} {m : List (String × β)} {k : String} {v : β}
    (h : getA m k = some v) : (k, v) ∈ m := by
  induction m with
  | nil => simp [getA] at h
  | cons q m ih =>
    by_cases hq : q.1 = k
    · simp [getA, hq] at h
      exact List.mem_cons.mpr (.inl (by cases q; simp_all))
    · simp [getA, hq] at h
      exact List.mem_cons.mpr (.inr (ih h))

theorem mem_setA {β : Type} {m : List (String × β)} {k : String} {v : β} {q : String × β}
    (h : q ∈ setA m k v) : q = (k, v) ∨ q ∈ m := by
  induction m with
  | nil => simpa [setA] using h
  | cons p m ih =>
    by_cases hp : p.1 = k
    · simp [setA, hp] at h
      rcases h with h | h
      · exact .inl h
      · exact .inr (.tail _ h)
    · simp [setA, hp] at h
      rcases h with h | h
      · exact .inr (by simp [h])
      · rcases ih h with h' | h'
        · exact .inl h'
        · exact .inr (.tail _ h')

theorem mem_setA_of_ne {β : Type} {m : List (String × β)} {q : String × β}
    (hq : q ∈ m) (k : String) (v : β) (hne : q.1 ≠ k) : q ∈ setA m k v := by
  induction m with
  | nil => simp at hq
  | cons p m ih =>
    by_cases hp : p.1 = k
    · simp [setA, hp]
      rcases List.mem_cons.mp hq with h | h
      · exact absurd (h ▸ hp) hne
      · exact .inr h
    · simp [setA, hp]
      rcases List.mem_cons.mp hq with h | h
      · exact .inl h
      · exact .inr (ih h)

theorem setA_append_of_not_mem {β : Type} {m : List (String × β)} {k : String}
    (h : getA m k = none) (v : β) : setA m k v = m ++ [(k, v)] := by
  induction m with
  | nil => simp [setA]
  | cons q m ih =>
    by_cases hq : q.1 = k
    · simp [getA, hq] at h
    · simp [getA, hq] at h
      simp [setA, hq, ih h]

theorem mem_keysOf_setA {β : Type} (m : List (String × β)) (k : String) (v : β)
    (a : String) : a ∈ keysOf (setA m k v) ↔ a ∈ keysOf m ∨ a = k := by
  induction m with
  | nil => simp [setA]
  | cons q m ih =>
    by_cases hq : q.1 = k
    · simp only [setA, if_pos hq, keysOf_cons, List.mem_cons]
      rw [← hq]
      tauto
    · simp only [setA, if_neg hq, keysOf_cons, List.mem_cons, ih]
      tauto

theorem keysOf_setA_of_mem {β : Type} {m : List (String × β)} {k : String} (v : β)
    (hk : k ∈ keysOf m) : keysOf (setA m k v) = keysOf m := by
  induction m with
  | nil => simp at hk
  | cons q m ih =>
    by_cases hq : q.1 = k
    · simp [setA, hq]
    · rcases (by simpa using hk) with h | h
      · exact absurd h.symm hq
      · simp [setA, hq, ih h]

theorem nodup_keysOf_setA {β : Type} {m : List (String × β)} (k : String) (v : β)
    (h : (keysOf m).Nodup) : (keysOf (setA m k v)).Nodup := by
  by_cases hk : k ∈ keysOf m
  · rw [keysOf_setA_of_mem v hk]
    exact h
  · rw [setA_append_of_not_mem ((getA_eq_none_iff m k).mpr hk) v]
    have : keysOf (m ++ [(k, v)]) = keysOf m ++ [k] := by simp [keysOf]
    rw [this, List.nodup_append]
    exact ⟨h, List.nodup_singleton k,
      fun a ha hb => hk ((List.mem_singleton.mp hb) ▸ ha)⟩

theorem getA_of_mem_nodup {β : Type} {m : List (String × β)} {k : String} {v : β}
    (hm : (keysOf m).Nodup) (h : (k, v) ∈ m) : getA m k = some v := by
  induction m with
  | nil => simp at h
  | cons q m ih =>
    have hm' := List.nodup_cons.mp (by simpa using hm)
    rcases List.mem_cons.mp h with h' | h'
    · simp [getA, ← h']
    · have hk : q.1 ≠ k := fun he =>
        hm'.1 (he ▸ mem_keysOf.mpr ⟨v, h'⟩)
      simp [getA, hk]
      exact ih hm'.2 h'

theorem setA_eq_self {β : Type} {m : List (String × β)} {k : String} {v : β}
    (h : getA m k = some v) : setA m k v = m := by
  induction m with
  | nil => simp [getA] at h
  | cons q m ih =>
    by_cases hq : q.1 = k
    · simp [getA, hq] at h
      cases q
      simp_all [setA]
    · simp [getA, hq] at h
      simp [setA, hq, ih h]

theorem mem_setA_nodup {β : Type} {m : List (String × β)} {k : String} {v : β}
    {q : String × β} (hnd : (keysOf m).Nodup) (h : q ∈ setA m k v) :
    q = (k, v) ∨ (q ∈ m ∧ q.1 ≠ k) := by
  induction m with
  | nil => exact .inl (by simpa [setA] using h)
  | cons p m ih =>
    have hnd' := List.nodup_cons.mp (by simpa using hnd)
    by_cases hp : p.1 = k
    · rw [setA, if_pos hp] at h
      rcases List.mem_cons.mp h with rfl | h
      · exact .inl rfl
      · refine .inr ⟨List.mem_cons.mpr (.inr h), fun he => ?_⟩
        exact hnd'.1 (hp ▸ he ▸ mem_keysOf.mpr ⟨q.2, by simpa using h⟩)
    · rw [setA, if_neg hp] at h
      rcases List.mem_cons.mp h with rfl | h
      · exact .inr ⟨List.mem_cons.mpr (.inl rfl), hp⟩
      · rcases ih hnd'.2 h with h' | ⟨h', hne⟩
        · exact .inl h'
        · exact .inr ⟨List.mem_cons.mpr (.inr h'), hne⟩

/-! ## Per-candidate monotonicity (the `candidate_votes` floor) -/

theorem cvLe_refl (m : List (String × ℤ)) : cvLe m m := fun _ => le_refl _

theorem cvLe_trans {a b c : List (String × ℤ)} (h₁ : cvLe a b) (h₂ : cvLe b c) :
    cvLe a c := fun n => le_trans (h₁ n) (h₂ n)

theorem getD_setA_self {β : Type} (m : List (String × β)) (k : String) (v : β)
    (d : β) : getD (setA m k v) k d = v := by
  rw [getD_eq_getA, getA_setA_self]
  rfl

theorem getD_setA_ne {β : Type} (m : List (String × β)) {k k' : String} (v : β)
    (d : β) (h : k' ≠ k) : getD (setA m k' v) k d = getD m k d := by
  rw [getD_eq_getA, getA_setA_ne m v h, ← getD_eq_getA]

theorem cvLe_setA {m : List (String × ℤ)} {k : String} {v : ℤ}
    (h : getD m k 0 ≤ v) : cvLe m (setA m k v) := by
  intro n
  by_cases hn : k = n
  · subst hn
    rw [getD_setA_self]
    exact h
  · rw [getD_setA_ne m v 0 hn]

/-- Every entry that the first pass stores dominates the votes the
candidate had in the incoming state. -/
theorem mem_pass1 {cd : List Obs} {s : CalState} {p : String × Row}
    (h : p ∈ pass1 cd s) : ∃ c ∈ cd, p = (c.name, mkRow s c) := by
  have aux : ∀ (l : List Obs) (acc : List (String × Row)) (p : String × Row),
      p ∈ l.foldl (fun a c => setA a c.name (mkRow s c)) acc →
      p ∈ acc ∨ ∃ c ∈ l, p = (c.name, mkRow s c) := by
    intro l
    induction l with
    | nil => intro acc p h; exact .inl h
    | cons c l ih =>
      intro acc p h
      rcases ih _ p h with h' | ⟨c', hc', he⟩
      · rcases mem_setA h' with h'' | h''
        · exact .inr ⟨c, List.mem_cons_self c l, h''⟩
        · exact .inl h''
      · exact .inr ⟨c', List.mem_cons.mpr (.inr hc'), he⟩
  rcases aux cd [] p h with h' | h'
  · simp at h'
  · exact h'

/-- The `calculated_votes` dict never holds two entries for one name. -/
theorem nodup_keysOf_pass1 (cd : List Obs) (s : CalState) :
    (keysOf (pass1 cd s)).Nodup := by
  have aux : ∀ (l : List Obs) (acc : List (String × Row)),
      (keysOf acc).Nodup →
      (keysOf (l.foldl (fun a c => setA a c.name (mkRow s c)) acc)).Nodup := by
    intro l
    induction l with
    | nil => intro acc h; exact h
    | cons c l ih => intro acc h; exact ih _ (nodup_keysOf_setA _ _ h)
  exact aux cd [] (by simp)

/-- Writing the first pass's rows into `candidate_votes` never lowers
any name's stored votes, provided each written value dominates the
value the name had in the original dict. -/
theorem cvLe_writeVotes {cv : List (String × ℤ)} {ps : List (String × Row)}
    (h : ∀ p ∈ ps, getD cv p.1 0 ≤ p.2.votes) : cvLe cv (writeVotes cv ps) := by
  induction ps using List.reverseRecOn with
  | nil => exact cvLe_refl cv
  | append_singleton qs q ih =>
    intro n
    have hqs : cvLe cv (writeVotes cv qs) :=
      ih fun p hp => h p (List.mem_append_left _ hp)
    rw [writeVotes, List.foldl_append]
    simp only [List.foldl_cons, List.foldl_nil]
    by_cases hn : q.1 = n
    · subst hn
      rw [getD_setA_self]
      exact h q (List.mem_append_right _ (List.mem_singleton_self q))
    · rw [getD_setA_ne _ _ 0 hn]
      exact hqs n

/-- The second (recalculation) pass also never lowers stored votes:
each write is a `max` against the value it is overwriting. -/
theorem cvLe_pass2 (cd : List Obs) (t : ℤ) (st : List (String × Row) × List (String × ℤ)) :
    cvLe st.2 (cd.foldl (pass2Step t) st).2 := by
  induction cd generalizing st with
  | nil => exact cvLe_refl _
  | cons c cd ih =>
    refine cvLe_trans ?_ (ih (pass2Step t st c))
    exact cvLe_setA (le_max_right _ _)

/-- One complete calibration call never lowers any candidate's stored
votes. -/
theorem calibrate_cv_mono (cd : List Obs) (s : CalState) :
    cvLe s.candidate_votes (calibrate_and_calculate_votes cd s).2.candidate_votes := by
  have h1 : cvLe s.candidate_votes (writeVotes s.candidate_votes (pass1 cd s)) := by
    refine cvLe_writeVotes fun p hp => ?_
    rcases mem_pass1 hp with ⟨c, _, he⟩
    subst he
    exact le_max_right _ _
  by_cases htp : 0 < totalPct cd
  · by_cases him : s.current_total < impliedTotal cd s
    · simpa [calibrate_and_calculate_votes, htp, him] using h1
    · simpa [calibrate_and_calculate_votes, htp, him] using
        cvLe_trans h1 (cvLe_pass2 cd (max s.current_total (impliedTotal cd s))
          (pass1 cd s, writeVotes s.candidate_votes (pass1 cd s)))
  · simpa [calibrate_and_calculate_votes, htp] using h1

/-! ## Total monotonicity -/

/-- One complete calibration call never lowers `current_total`: a
strictly larger implied total replaces it, and otherwise
`max(current_total, implied_total)` retains it. -/
theorem calibrate_total_mono (cd : List Obs) (s : CalState) :
    s.current_total ≤ (calibrate_and_calculate_votes cd s).2.current_total := by
  by_cases htp : 0 < totalPct cd
  · by_cases him : s.current_total < impliedTotal cd s
    · simp [calibrate_and_calculate_votes, htp, him]
      exact le_of_lt him
    · simp [calibrate_and_calculate_votes, htp, him]
  · simp [calibrate_and_calculate_votes, htp]

/-! ## The observation history -/

theorem runTrace_shape (cycles : List (List Obs)) (s : CalState) :
    ∃ t, runTrace cycles s = s :: t := by
  cases cycles <;> exact ⟨_, rfl⟩

theorem runTrace_cv_chain (cycles : List (List Obs)) (s : CalState) :
    List.Chain' (fun a b => cvLe a.candidate_votes b.candidate_votes)
      (runTrace cycles s) := by
  induction cycles generalizing s with
  | nil => simp [runTrace]
  | cons cd rest ih =>
    obtain ⟨t, ht⟩ := runTrace_shape rest (calibrate_and_calculate_votes cd s).2
    rw [runTrace, ht]
    exact List.chain'_cons.mpr ⟨calibrate_cv_mono cd s, ht ▸ ih _⟩

theorem runTrace_total_chain (cycles : List (List Obs)) (s : CalState) :
    List.Chain' (· ≤ ·) ((runTrace cycles s).map CalState.current_total) := by
  induction cycles generalizing s with
  | nil => simp [runTrace]
  | cons cd rest ih =>
    obtain ⟨t, ht⟩ := runTrace_shape rest (calibrate_and_calculate_votes cd s).2
    rw [runTrace, ht]
    simp only [List.map_cons]
    exact List.chain'_cons.mpr
      ⟨calibrate_total_mono cd s, by simpa [ht] using ih (calibrate_and_calculate_votes cd s).2⟩

/-! ## Stable-sort lemmas -/

theorem sInsert_perm {α : Type} (prec : α → α → Prop) [DecidableRel prec] (x : α)
    (l : List α) : (sInsert prec x l).Perm (x :: l) := by
  induction l with
  | nil => exact List.Perm.refl _
  | cons y ys ih =>
    by_cases h : prec y x
    · rw [sInsert, if_pos h]
      exact (ih.cons y).trans (List.Perm.swap x y ys)
    · rw [sInsert, if_neg h]

theorem sSort_perm {α : Type} (prec : α → α → Prop) [DecidableRel prec]
    (l : List α) : (sSort prec l).Perm l := by
  induction l with
  | nil => exact List.Perm.refl _
  | cons x xs ih => exact (sInsert_perm prec x (sSort prec xs)).trans (ih.cons x)

theorem pairwise_sInsert {α : Type} {prec : α → α → Prop} [DecidableRel prec]
    (hasym : ∀ a b, prec a b → ¬ prec b a)
    (hneg : ∀ a b c, ¬ prec b a → ¬ prec c b → ¬ prec c a)
    (x : α) {l : List α} (hl : List.Pairwise (fun a b => ¬ prec b a) l) :
    List.Pairwise (fun a b => ¬ prec b a) (sInsert prec x l) := by
  induction l with
  | nil => simp [sInsert]
  | cons y ys ih =>
    rcases List.pairwise_cons.mp hl with ⟨hy, hys⟩
    by_cases h : prec y x
    · rw [sInsert, if_pos h]
      refine List.pairwise_cons.mpr ⟨?_, ih hys⟩
      intro b hb
      rcases List.mem_cons.mp ((sInsert_perm prec x ys).mem_iff.mp hb) with rfl | hb
      · exact hasym y b h
      · exact hy b hb
    · rw [sInsert, if_neg h]
      refine List.pairwise_cons.mpr ⟨?_, hl⟩
      intro b hb
      rcases List.mem_cons.mp hb with rfl | hb
      · exact h
      · exact hneg x y b h (hy b hb)

theorem pairwise_sSort {α : Type} {prec : α → α → Prop} [DecidableRel prec]
    (hasym : ∀ a b, prec a b → ¬ prec b a)
    (hneg : ∀ a b c, ¬ prec b a → ¬ prec c b → ¬ prec c a)
    (l : List α) : List.Pairwise (fun a b => ¬ prec b a) (sSort prec l) := by
  induction l with
  | nil => simp [sSort]
  | cons x xs ih => exact pairwise_sInsert hasym hneg x ih

theorem filter_sInsert {α : Type} {prec : α → α → Prop} [DecidableRel prec]
    {g : α → Bool} (hg : ∀ a b, g a = true → g b = true → ¬ prec a b)
    (x : α) (l : List α) :
    (sInsert prec x l).filter g = if g x then x :: l.filter g else l.filter g := by
  induction l with
  | nil => rcases hx : g x <;> simp [sInsert, hx]
  | cons y ys ih =>
    by_cases h : prec y x
    · rw [sInsert, if_pos h]
      rcases hx : g x with _ | _
      · rcases hy : g y <;> simp [List.filter, hx, hy, ih]
      · have hy : g y = false := by
          rcases hy : g y with _ | _
          · rfl
          · exact absurd h (hg y x hy hx)
        simp [List.filter, hx, hy, ih]
    · rw [sInsert, if_neg h]
      rcases hx : g x <;> simp [List.filter, hx]

theorem filter_sSort {α : Type} {prec : α → α → Prop} [DecidableRel prec]
    {g : α → Bool} (hg : ∀ a b, g a = true → g b = true → ¬ prec a b)
    (l : List α) : (sSort prec l).filter g = l.filter g := by
  induction l with
  | nil => rfl
  | cons x xs ih =>
    rw [sSort, filter_sInsert hg]
    rcases hx : g x <;> simp [List.filter, hx, ih]

/-! ## Rank-assignment lemmas -/

theorem addRanks_toEntry (l : List Entry) (i : ℕ) :
    (addRanks l i).map toEntry = l := by
  induction l generalizing i with
  | nil => rfl
  | cons e es ih => simp [addRanks, toEntry, ih]

theorem addRanks_length (l : List Entry) (i : ℕ) :
    (addRanks l i).length = l.length := by
  induction l generalizing i with
  | nil => rfl
  | cons e es ih => simp [addRanks, ih]

theorem addRanks_ranks (l : List Entry) (i : ℕ) :
    (addRanks l i).map Obs.rank = List.range' i l.length := by
  induction l generalizing i with
  | nil => rfl
  | cons e es ih => simp [addRanks, List.range'_succ, ih]

/-! ## Extractor dedup invariant -/

theorem fst_mem_keysOf {β : Type} {m : List (String × β)} {q : String × β}
    (h : q ∈ m) : q.1 ∈ keysOf m :=
  List.mem_map_of_mem Prod.fst h

theorem dedupStep_eq_of_none {m : List (String × Entry)} {p : String × ℚ}
    (hg : getA m (foundKey p) = none) :
    dedupStep m p = setA m (foundKey p) ⟨pyStrip p.1, round6 p.2⟩ := by
  simp only [foundKey] at hg
  simp only [dedupStep, foundKey]
  rw [hg]

theorem dedupStep_eq_of_lt {m : List (String × Entry)} {p : String × ℚ} {e : Entry}
    (hg : getA m (foundKey p) = some e) (hlt : e.percent < round6 p.2) :
    dedupStep m p = setA m (foundKey p) ⟨pyStrip p.1, round6 p.2⟩ := by
  simp only [foundKey] at hg
  simp [dedupStep, foundKey, hg, hlt]

theorem dedupStep_eq_of_ge {m : List (String × Entry)} {p : String × ℚ} {e : Entry}
    (hg : getA m (foundKey p) = some e) (hge : ¬ e.percent < round6 p.2) :
    dedupStep m p = m := by
  simp only [foundKey] at hg
  simp [dedupStep, foundKey, hg, hge]

theorem dedupStep_inv {m : List (String × Entry)} {seen : List (String × ℚ)}
    (h : DedupInv m seen) (p : String × ℚ) :
    DedupInv (dedupStep m p) (seen ++ [p]) := by
  obtain ⟨hnd, hkey, hdom, hatt, hcov⟩ := h
  rcases hg : getA m (foundKey p) with _ | e
  · have hfresh : foundKey p ∉ keysOf m := (getA_eq_none_iff _ _).mp hg
    rw [dedupStep_eq_of_none hg]
    refine ⟨nodup_keysOf_setA _ _ hnd, ?_, ?_, ?_, ?_⟩
    · intro q hq
      rcases mem_setA hq with rfl | hq
      · rfl
      · exact hkey q hq
    · intro q hq p' hp' hk
      rcases mem_setA_nodup hnd hq with rfl | ⟨hq, hne⟩
      · rcases List.mem_append.mp hp' with hp' | hp'
        · have hc := hcov p' hp'
          rw [hk] at hc
          exact absurd hc hfresh
        · have hpp : p = p' := (List.mem_singleton.mp hp').symm
          subst hpp
          exact le_refl _
      · rcases List.mem_append.mp hp' with hp' | hp'
        · exact hdom q hq p' hp' hk
        · have hpp : p = p' := (List.mem_singleton.mp hp').symm
          subst hpp
          exact absurd (hk ▸ fst_mem_keysOf hq) hfresh
    · intro q hq
      rcases mem_setA_nodup hnd hq with rfl | ⟨hq, _⟩
      · exact ⟨p, List.mem_append.mpr (.inr (by simp)), rfl, rfl, rfl⟩
      · rcases hatt q hq with ⟨p', hp', h1, h2, h3⟩
        exact ⟨p', List.mem_append.mpr (.inl hp'), h1, h2, h3⟩
    · intro p' hp'
      rcases List.mem_append.mp hp' with hp' | hp'
      · exact (mem_keysOf_setA _ _ _ _).mpr (.inl (hcov p' hp'))
      · have hpp : p = p' := (List.mem_singleton.mp hp').symm
        subst hpp
        exact (mem_keysOf_setA _ _ _ _).mpr (.inr rfl)
  · have hmem : (foundKey p, e) ∈ m := getA_mem hg
    by_cases hlt : e.percent < round6 p.2
    · rw [dedupStep_eq_of_lt hg hlt]
      refine ⟨nodup_keysOf_setA _ _ hnd, ?_, ?_, ?_, ?_⟩
      · intro q hq
        rcases mem_setA hq with rfl | hq
        · rfl
        · exact hkey q hq
      · intro q hq p' hp' hk
        rcases mem_setA_nodup hnd hq with rfl | ⟨hq, hne⟩
        · rcases List.mem_append.mp hp' with hp' | hp'
          · exact le_of_lt (lt_of_le_of_lt (hdom _ hmem p' hp' hk) hlt)
          · have hpp : p = p' := (List.mem_singleton.mp hp').symm
            subst hpp
            exact le_refl _
        · rcases List.mem_append.mp hp' with hp' | hp'
          · exact hdom q hq p' hp' hk
          · have hpp : p = p' := (List.mem_singleton.mp hp').symm
            subst hpp
            exact absurd hk.symm hne
      · intro q hq
        rcases mem_setA_nodup hnd hq with rfl | ⟨hq, _⟩
        · exact ⟨p, List.mem_append.mpr (.inr (by simp)), rfl, rfl, rfl⟩
        · rcases hatt q hq with ⟨p', hp', h1, h2, h3⟩
          exact ⟨p', List.mem_append.mpr (.inl hp'), h1, h2, h3⟩
      · intro p' hp'
        rcases List.mem_append.mp hp' with hp' | hp'
        · exact (mem_keysOf_setA _ _ _ _).mpr (.inl (hcov p' hp'))
        · have hpp : p = p' := (List.mem_singleton.mp hp').symm
          subst hpp
          exact (mem_keysOf_setA _ _ _ _).mpr (.inr rfl)
    · rw [dedupStep_eq_of_ge hg hlt]
      refine ⟨hnd, hkey, ?_, ?_, ?_⟩
      · intro q hq p' hp' hk
        rcases List.mem_append.mp hp' with hp' | hp'
        · exact hdom q hq p' hp' hk
        · have hpp : p = p' := (List.mem_singleton.mp hp').symm
          subst hpp
          have hqa : getA m q.1 = some q.2 := by
            rcases q with ⟨qk, qe⟩
            exact getA_of_mem_nodup hnd hq
          rw [← hk] at hqa
          rw [hg] at hqa
          have he : q.2 = e := by injection hqa.symm
          rw [he]
          exact not_lt.mp hlt
      · intro q hq
        rcases hatt q hq with ⟨p', hp', h1, h2, h3⟩
        exact ⟨p', List.mem_append.mpr (.inl hp'), h1, h2, h3⟩
      · intro p' hp'
        rcases List.mem_append.mp hp' with hp' | hp'
        · exact hcov p' hp'
        · have hpp : p = p' := (List.mem_singleton.mp hp').symm
          subst hpp
          exact fst_mem_keysOf hmem

theorem dedup_inv_foldl (found : List (String × ℚ)) :
    ∀ (m : List (String × Entry)) (seen : List (String × ℚ)),
      DedupInv m seen → DedupInv (found.foldl dedupStep m) (seen ++ found) := by
  induction found with
  | nil =>
    intro m seen h
    simpa using h
  | cons p found ih =>
    intro m seen h
    have h' := ih (dedupStep m p) (seen ++ [p]) (dedupStep_inv h p)
    simpa using h'

theorem dedup_inv (found : List (String × ℚ)) :
    DedupInv (found.foldl dedupStep []) found := by
  have h0 : DedupInv [] [] := ⟨by simp, by simp, by simp, by simp, by simp⟩
  simpa using dedup_inv_foldl found [] [] h0

theorem extract_ratiovotes_eq (found : List (String × ℚ)) :
    extract_ratiovotes found
      = addRanks (sSort pctPrec ((found.foldl dedupStep []).map (·.2))) 1 := rfl

theorem pctPrec_asymm : ∀ a b : Entry, pctPrec a b → ¬ pctPrec b a :=
  fun _ _ h => not_lt.mpr (le_of_lt h)

theorem pctPrec_negtrans :
    ∀ a b c : Entry, ¬ pctPrec b a → ¬ pctPrec c b → ¬ pctPrec c a :=
  fun _ _ _ h1 h2 => not_lt.mpr (le_trans (not_lt.mp h2) (not_lt.mp h1))

/-- Every extractor output observation corresponds to an entry of the
dedup dict, forgetting the rank. -/
theorem extract_mem_dedup {found : List (String × ℚ)} {o : Obs}
    (ho : o ∈ extract_ratiovotes found) :
    ∃ q ∈ found.foldl dedupStep [], q.2 = toEntry o := by
  have h1 : toEntry o ∈ (extract_ratiovotes found).map toEntry :=
    List.mem_map_of_mem toEntry ho
  rw [extract_ratiovotes_eq, addRanks_toEntry] at h1
  have h2 : toEntry o ∈ (found.foldl dedupStep []).map (·.2) :=
    (sSort_perm pctPrec _).mem_iff.mp h1
  rcases List.mem_map.mp h2 with ⟨q, hq, he⟩
  exact ⟨q, hq, he⟩

/-! ## Second-pass identity lemmas -/

theorem foldl_id {α σ : Type} (f : σ → α → σ) (st : σ) (l : List α)
    (h : ∀ a ∈ l, f st a = st) : l.foldl f st = st := by
  induction l with
  | nil => rfl
  | cons a l ih =>
    rw [List.foldl_cons, h a (List.mem_cons_self a l)]
    exact ih fun b hb => h b (List.mem_cons.mpr (.inr hb))

theorem writeVotes_getA_not_mem {cv : List (String × ℤ)} {ps : List (String × Row)}
    {k : String} (h : k ∉ keysOf ps) : getA (writeVotes cv ps) k = getA cv k := by
  induction ps generalizing cv with
  | nil => rfl
  | cons p ps ih =>
    have h1 : k ∉ keysOf ps := fun hk => h (by simpa using Or.inr hk)
    have h2 : p.1 ≠ k := fun he => h (by simpa using Or.inl he.symm)
    rw [writeVotes, List.foldl_cons]
    rw [show List.foldl (fun m q => setA m q.1 q.2.votes) (setA cv p.1 p.2.votes) ps
        = writeVotes (setA cv p.1 p.2.votes) ps from rfl]
    rw [ih h1]
    exact getA_setA_ne cv p.2.votes h2

theorem writeVotes_getA_mem {cv : List (String × ℤ)} {ps : List (String × Row)}
    (hnd : (keysOf ps).Nodup) {k : String} {r : Row} (h : (k, r) ∈ ps) :
    getA (writeVotes cv ps) k = some r.votes := by
  induction ps generalizing cv with
  | nil => simp at h
  | cons p ps ih =>
    have hnd' := List.nodup_cons.mp (by simpa using hnd)
    rw [writeVotes, List.foldl_cons]
    rw [show List.foldl (fun m q => setA m q.1 q.2.votes) (setA cv p.1 p.2.votes) ps
        = writeVotes (setA cv p.1 p.2.votes) ps from rfl]
    rcases List.mem_cons.mp h with he | hm
    · have hk : p.1 = k := by rw [← he]
      have hnot : k ∉ keysOf ps := hk ▸ hnd'.1
      rw [writeVotes_getA_not_mem hnot, hk, ← he]
      exact getA_setA_self cv k r.votes
    · exact ih hnd'.2 hm

theorem foldl_pass1_getA_not_names {s : CalState} (l : List Obs)
    (acc : List (String × Row)) (k : String) (h : ∀ c ∈ l, c.name ≠ k) :
    getA (l.foldl (fun a c => setA a c.name (mkRow s c)) acc) k = getA acc k := by
  induction l generalizing acc with
  | nil => rfl
  | cons c l ih =>
    rw [List.foldl_cons, ih _ fun c' hc' => h c' (List.mem_cons.mpr (.inr hc'))]
    exact getA_setA_ne acc (mkRow s c) (h c (List.mem_cons_self c l))

theorem pass1_getA {cd : List Obs} {s : CalState} (hnd : (cd.map Obs.name).Nodup)
    {c : Obs} (hc : c ∈ cd) : getA (pass1 cd s) c.name = some (mkRow s c) := by
  have aux : ∀ (l : List Obs) (acc : List (String × Row)),
      (l.map Obs.name).Nodup → c ∈ l →
      getA (l.foldl (fun a c' => setA a c'.name (mkRow s c')) acc) c.name
        = some (mkRow s c) := by
    intro l
    induction l with
    | nil => intro acc _ hc'; simp at hc'
    | cons o l ih =>
      intro acc hnd' hc'
      have hsplit : (∀ x ∈ l, ¬ x.name = o.name) ∧ (l.map Obs.name).Nodup := by
        simpa using hnd'
      rcases List.mem_cons.mp hc' with rfl | hc''
      · rw [List.foldl_cons,
          foldl_pass1_getA_not_names l _ c.name fun c' hc'' => hsplit.1 c' hc'']
        exact getA_setA_self acc c.name (mkRow s c)
      · exact ih _ hsplit.2 hc''
  exact aux cd [] hnd hc

theorem updRowVotes_eq_self {m : List (String × Row)} {k : String} {v : ℤ}
    (h : ∀ q ∈ m, q.1 = k → q.2.votes = v) : updRowVotes m k v = m := by
  induction m with
  | nil => rfl
  | cons q m ih =>
    have ht : updRowVotes m k v = m := ih fun q' hq' => h q' (List.mem_cons.mpr (.inr hq'))
    show (if q.1 = k then (q.1, { q.2 with votes := v }) else q) :: updRowVotes m k v = q :: m
    rw [ht]
    by_cases hq : q.1 = k
    · rw [if_pos hq]
      have hv := h q (List.mem_cons_self q m) hq
      rcases q with ⟨qk, ⟨r1, r2, r3, r4⟩⟩
      simp only at hv
      rw [← hv]
    · rw [if_neg hq]

/-- When the observation names are distinct, each iteration of the
second pass recomputes exactly the value the first pass already
stored, and writes it back unchanged. -/
theorem pass2Step_id {cd : List Obs} {s : CalState} (hnd : (cd.map Obs.name).Nodup)
    {c : Obs} (hc : c ∈ cd) :
    pass2Step s.current_total
      (pass1 cd s, writeVotes s.candidate_votes (pass1 cd s)) c
      = (pass1 cd s, writeVotes s.candidate_votes (pass1 cd s)) := by
  have hrow := pass1_getA (s := s) hnd hc
  have hcv1 : getA (writeVotes s.candidate_votes (pass1 cd s)) c.name
      = some (mkRow s c).votes :=
    writeVotes_getA_mem (nodup_keysOf_pass1 cd s) (getA_mem hrow)
  have hgetD : getD (writeVotes s.candidate_votes (pass1 cd s)) c.name 0
      = (mkRow s c).votes := by
    rw [getD_eq_getA, hcv1]
    rfl
  have hmax : max (naiveVotes s.current_total c.percent)
      (getD (writeVotes s.candidate_votes (pass1 cd s)) c.name 0)
      = (mkRow s c).votes := by
    rw [hgetD]
    exact max_eq_right (le_max_left _ _)
  show (updRowVotes (pass1 cd s) c.name _, setA (writeVotes s.candidate_votes (pass1 cd s)) c.name _) = _
  rw [hmax]
  refine Prod.ext ?_ ?_
  · show updRowVotes (pass1 cd s) c.name (mkRow s c).votes = pass1 cd s
    refine updRowVotes_eq_self fun q hq hk => ?_
    have hqa : getA (pass1 cd s) q.1 = some q.2 := by
      rcases q with ⟨qk, qr⟩
      exact getA_of_mem_nodup (nodup_keysOf_pass1 cd s) hq
    rw [hk, hrow] at hqa
    have : q.2 = mkRow s c := by injection hqa.symm
    rw [this]
  · show setA (writeVotes s.candidate_votes (pass1 cd s)) c.name (mkRow s c).votes
      = writeVotes s.candidate_votes (pass1 cd s)
    exact setA_eq_self hcv1

/-! ## Claim theorems -/

/-- C1, counterexample: the claim keys candidates by the uppercased
name across cycles, but `calibrate_and_calculate_votes` keys
`candidate_votes` by the exact name string carried in the
observations.  When the upstream casing drifts from "Alice" to
"ALICE" (the same case-normalized identity), the second cycle starts
the new spelling from 0, and the emitted votes for the identity drop
from 500 to 400 even though the candidate had been observed before. -/
theorem casing_drift_drops_identity_votes :
    pyUpper "ALICE" = pyUpper "Alice" ∧
    (calibrate_and_calculate_votes [⟨"Alice", 50, 1⟩] ⟨1000, []⟩).1
      = [⟨1, "Alice", 50, 500⟩] ∧
    (calibrate_and_calculate_votes [⟨"ALICE", 40, 1⟩]
        (calibrate_and_calculate_votes [⟨"Alice", 50, 1⟩] ⟨1000, []⟩).2).1
      = [⟨1, "ALICE", 40, 400⟩] ∧
    (400 : ℤ) < 500 := by
  refine ⟨by decide, ?_, ?_, by norm_num⟩
  · norm_num [calibrate_and_calculate_votes, pass1, mkRow, writeVotes, totalVotes,
      totalPct, impliedTotal, naiveVotes, pyRound, setA, getA, getD, pass2Step,
      updRowVotes, sSort, sInsert, rankPrec]
  · have hne : ("Alice" = "ALICE") = False := by simp
    norm_num [calibrate_and_calculate_votes, pass1, mkRow, writeVotes, totalVotes,
      totalPct, impliedTotal, naiveVotes, pyRound, setA, getA, getD, pass2Step,
      updRowVotes, sSort, sInsert, rankPrec, hne]

/-- C1, amended: per candidate keyed by the exact name string carried
in the observations, the stored votes never decrease from one
calibration cycle to the next (a name stored with some votes is only
ever overwritten by a `max` against that value), even when the
reported percentage drops; the uppercased-key normalization applies
only within a single extraction, so a casing drift across cycles
creates a fresh candidate entry rather than continuing the old one. -/
theorem candidate_votes_monotone_per_name (cycles : List (List Obs)) (s : CalState) :
    List.Chain' (fun a b => ∀ n : String,
      getD a.candidate_votes n 0 ≤ getD b.candidate_votes n 0) (runTrace cycles s) :=
  runTrace_cv_chain cycles s

/-- C2: starting from any non-negative initial total, the contest-wide
`current_total` never decreases across the observation history: after
each calibration call it is at least its value before the call. -/
theorem current_total_monotone_history (cycles : List (List Obs)) (s : CalState)
    (h : 0 ≤ s.current_total) :
    List.Chain' (· ≤ ·) ((runTrace cycles s).map CalState.current_total) :=
  runTrace_total_chain cycles s

theorem current_total_monotone_history_witness :
    List.Chain' (· ≤ ·)
      ((runTrace [[⟨"A", 50, 1⟩], [⟨"A", 40, 1⟩]] ⟨1000, []⟩).map CalState.current_total) :=
  current_total_monotone_history [[⟨"A", 50, 1⟩], [⟨"A", 40, 1⟩]] ⟨1000, []⟩ (by decide)

/-- C3: the code does not sleep after a cycle whose extraction yields
zero candidates — the `continue` skips the trailing
`time.sleep(INTERVAL)` and refetches immediately — whereas a fetch
failure (caught exception) does fall through to the sleep. -/
theorem zero_candidates_skips_interval_sleep :
    (poll_cycle (CycleInput.rawData []) ⟨INITIAL_TOTAL_ESTIMATE, []⟩).2 = false ∧
    (poll_cycle CycleInput.fetchFail ⟨INITIAL_TOTAL_ESTIMATE, []⟩).2 = true :=
  ⟨rfl, rfl⟩

/-- C4, counterexample: both endpoints answer with a 2xx status and a
non-empty body (201 and 202), yet `fetch_raw` raises, because the code
tests `status_code == 200` exactly, not any 2xx status. -/
theorem fetch_rejects_non200_2xx :
    ((200:ℕ) ≤ 201 ∧ (201:ℕ) < 300 ∧ pyStrip "ok" ≠ "") ∧
    ((200:ℕ) ≤ 202 ∧ (202:ℕ) < 300 ∧ pyStrip "ok" ≠ "") ∧
    (fetch_raw (some ⟨201, "ok"⟩) (some ⟨202, "ok"⟩)).1 = Except.error () := by
  refine ⟨⟨by norm_num, by norm_num, by decide⟩, ⟨by norm_num, by norm_num, by decide⟩, ?_⟩
  rfl

/-- C4, amended: with success meaning status exactly 200 with a
non-empty (stripped) body, `fetch_raw` returns the primary's body
without contacting the fallback when the primary succeeds, returns the
fallback's body whenever the primary path fails (request raised after
its bounded retries, non-200 status, or empty body) and the fallback
succeeds — in particular when the primary repeatedly fails with HTTP
500 — and raises only after both paths have failed. -/
theorem fetch_fallback_contract (p f : Option HttpResponse) :
    (∀ r, p = some r → respOk r → fetch_raw p f = (Except.ok r.body, false)) ∧
    (primaryFails p → ∀ rp, f = some rp → respOk rp →
      fetch_raw p f = (Except.ok rp.body, true)) ∧
    (∀ e, (fetch_raw p f).1 = Except.error e → primaryFails p ∧ proxyFails f) := by
  refine ⟨?_, ?_, ?_⟩
  · rintro r rfl hok
    simp [fetch_raw, hok]
  · intro hpf rp hf hok
    subst hf
    cases p with
    | none => simp [fetch_raw, tryProxy, hok]
    | some r =>
      have hr : ¬ respOk r := hpf
      simp [fetch_raw, hr, tryProxy, hok]
  · intro e herr
    cases p with
    | none =>
      refine ⟨trivial, ?_⟩
      cases f with
      | none => trivial
      | some rp =>
        by_cases hok : respOk rp
        · simp [fetch_raw, tryProxy, hok] at herr
        · exact hok
    | some r =>
      by_cases hokr : respOk r
      · simp [fetch_raw, hokr] at herr
      · refine ⟨hokr, ?_⟩
        cases f with
        | none => trivial
        | some rp =>
          by_cases hok : respOk rp
          · simp [fetch_raw, hokr, tryProxy, hok] at herr
          · exact hok

theorem fetch_fallback_contract_witness :
    fetch_raw (some ⟨500, "boom"⟩) (some ⟨200, "payload"⟩)
      = (Except.ok "payload", true) :=
  (fetch_fallback_contract (some ⟨500, "boom"⟩) (some ⟨200, "payload"⟩)).2.1
    (by simp [primaryFails, respOk]) ⟨200, "payload"⟩ rfl (by decide)

/-- C5: with `current_total = 1000` and one candidate at 50% on its
first cycle, calibration yields 500 votes; on the second cycle at 40%
the votes stay at 500 (not 400) and the total is adjusted upward to
`round(votes / percent_sum * 100) = 1250`. -/
theorem calibration_scenario_50_then_40 :
    (calibrate_and_calculate_votes [⟨"A", 50, 1⟩] ⟨1000, []⟩).1
      = [⟨1, "A", 50, 500⟩] ∧
    (calibrate_and_calculate_votes [⟨"A", 40, 1⟩]
        (calibrate_and_calculate_votes [⟨"A", 50, 1⟩] ⟨1000, []⟩).2).1
      = [⟨1, "A", 40, 500⟩] ∧
    (500 : ℤ) ≥ 500 ∧
    (calibrate_and_calculate_votes [⟨"A", 40, 1⟩]
        (calibrate_and_calculate_votes [⟨"A", 50, 1⟩] ⟨1000, []⟩).2).2.current_total
      = pyRound ((500 : ℚ) / 40 * 100) ∧
    pyRound ((500 : ℚ) / 40 * 100) = 1250 ∧
    (1000 : ℤ) < 1250 := by
  refine ⟨?_, ?_, by norm_num, ?_, by norm_num [pyRound], by norm_num⟩ <;>
    norm_num [calibrate_and_calculate_votes, pass1, mkRow, writeVotes, totalVotes,
      totalPct, impliedTotal, naiveVotes, pyRound, setA, getA, getD, pass2Step,
      updRowVotes, sSort, sInsert, rankPrec]

/-- C8: when the observed percentages sum to 0 (in particular for an
empty observation list) the whole guarded block — the division
computing the implied total and everything after it — is skipped:
`current_total` is left unchanged and the call's entire result is the
first pass's rows and vote writes. -/
theorem zero_percent_sum_keeps_total (cd : List Obs) (s : CalState)
    (h : totalPct cd = 0) :
    (calibrate_and_calculate_votes cd s).2.current_total = s.current_total ∧
    calibrate_and_calculate_votes cd s
      = (sSort rankPrec ((pass1 cd s).map (·.2)),
         ⟨s.current_total, writeVotes s.candidate_votes (pass1 cd s)⟩) := by
  have hng : ¬ 0 < totalPct cd := by rw [h]; exact lt_irrefl 0
  exact ⟨by simp [calibrate_and_calculate_votes, hng],
         by simp [calibrate_and_calculate_votes, hng]⟩

theorem zero_percent_sum_keeps_total_witness :
    (calibrate_and_calculate_votes [] ⟨1017428, [("A", 3)]⟩).2.current_total
      = (1017428 : ℤ) :=
  (zero_percent_sum_keeps_total [] ⟨1017428, [("A", 3)]⟩ rfl).1

/-- The `candidate_votes` object of a snapshot decodes back to exactly
the map that was encoded. -/
theorem decodeVotes_roundtrip (cv : List (String × ℤ)) :
    decodeVotes (cv.map (fun p => (p.1, Json.num p.2))) = some cv := by
  induction cv with
  | nil => rfl
  | cons p cv ih =>
    cases p
    simp [decodeVotes, ih]

/-- C9: `save_state` followed by `load_state` reproduces exactly the
total and the candidate vote map that were saved. -/
theorem snapshot_roundtrip (t : ℤ) (cv : List (String × ℤ))
    (ht : 0 ≤ t) (hv : ∀ p ∈ cv, 0 ≤ p.2) :
    load_state (save_state t cv) = some (t, cv) := by
  simp [save_state, load_state, jLookup, decodeVotes_roundtrip]

theorem snapshot_roundtrip_witness :
    load_state (save_state 5 [("A", 3)]) = some (5, [("A", 3)]) :=
  snapshot_roundtrip 5 [("A", 3)] (by decide) (by decide)

/-- C6: for every input, the extractor returns exactly one observation
per case-normalized name present in the input; its percentage
dominates every percentage seen for that normalized name, and is one
of them (carried together with its display name). -/
theorem extractor_dedup_highest (found : List (String × ℚ)) (k : String) :
    ((extract_ratiovotes found).filter (fun o => pyUpper o.name = k)).length
      = (if ∃ p ∈ found, foundKey p = k then 1 else 0) ∧
    (∀ o ∈ extract_ratiovotes found, ∀ p ∈ found,
      foundKey p = pyUpper o.name → round6 p.2 ≤ o.percent) ∧
    (∀ o ∈ extract_ratiovotes found, ∃ p ∈ found,
      pyStrip p.1 = o.name ∧ round6 p.2 = o.percent) := by
  obtain ⟨hnd, hkey, hdom, hatt, hcov⟩ := dedup_inv found
  have hiff : k ∈ keysOf (found.foldl dedupStep []) ↔ ∃ p ∈ found, foundKey p = k := by
    constructor
    · intro hk
      rcases mem_keysOf.mp hk with ⟨v, hv⟩
      rcases hatt (k, v) hv with ⟨p, hp, h1, _, _⟩
      exact ⟨p, hp, h1⟩
    · rintro ⟨p, hp, h1⟩
      exact h1 ▸ hcov p hp
  refine ⟨?_, ?_, ?_⟩
  · have hcnt : ((extract_ratiovotes found).filter (fun o => pyUpper o.name = k)).length
        = (keysOf (found.foldl dedupStep [])).count k := by
      rw [extract_ratiovotes_eq, ← List.countP_eq_length_filter]
      have h1 : (addRanks (sSort pctPrec ((found.foldl dedupStep []).map (·.2))) 1).countP
            (fun o => decide (pyUpper o.name = k))
          = (sSort pctPrec ((found.foldl dedupStep []).map (·.2))).countP
            (fun e => decide (pyUpper e.name = k)) := by
        have h2 := List.countP_map (fun e : Entry => decide (pyUpper e.name = k)) toEntry
          (addRanks (sSort pctPrec ((found.foldl dedupStep []).map (·.2))) 1)
        rw [addRanks_toEntry] at h2
        exact h2.symm
      rw [h1, (sSort_perm pctPrec _).countP_eq]
      have h3 := List.countP_map (fun e : Entry => decide (pyUpper e.name = k)) (·.2)
        (found.foldl dedupStep [])
      rw [h3]
      have h4 : (found.foldl dedupStep []).countP
            ((fun e : Entry => decide (pyUpper e.name = k)) ∘ (·.2))
          = (found.foldl dedupStep []).countP (fun q => decide (q.1 = k)) := by
        refine List.countP_congr fun q hq => ?_
        simp only [Function.comp]
        rw [hkey q hq]
      rw [h4]
      have h5 := List.countP_map (fun a : String => decide (a = k)) Prod.fst
        (found.foldl dedupStep [])
      rw [show (keysOf (found.foldl dedupStep [])) = (found.foldl dedupStep []).map Prod.fst
          from rfl, List.count_eq_countP]
      have h6 : List.countP (fun x => x == k) ((found.foldl dedupStep []).map Prod.fst)
          = List.countP (fun a : String => decide (a = k))
              ((found.foldl dedupStep []).map Prod.fst) :=
        List.countP_congr fun a _ => by simp
      rw [h6, h5]
      rfl
    rw [hcnt]
    by_cases hex : ∃ p ∈ found, foundKey p = k
    · rw [if_pos hex]
      exact List.count_eq_one_of_mem hnd (hiff.mpr hex)
    · rw [if_neg hex]
      exact List.count_eq_zero_of_not_mem fun hm => hex (hiff.mp hm)
  · intro o ho p hp hk
    rcases extract_mem_dedup ho with ⟨q, hq, he⟩
    have h1 : pyUpper o.name = q.1 := by
      rw [← hkey q hq, he]
      rfl
    have h2 := hdom q hq p hp (by rw [hk, h1])
    rw [he] at h2
    exact h2
  · intro o ho
    rcases extract_mem_dedup ho with ⟨q, hq, he⟩
    rcases hatt q hq with ⟨p, hp, _, h2, h3⟩
    refine ⟨p, hp, ?_, ?_⟩
    · rw [h2, he]
      rfl
    · rw [h3, he]
      rfl

theorem extractor_dedup_highest_witness :
    ((extract_ratiovotes [("Alice", 12), ("alice", 31/2)]).filter
      (fun o => pyUpper o.name = "ALICE")).length = 1 ∧
    extract_ratiovotes [("Alice", 12), ("alice", 31/2)] = [⟨"alice", 31/2, 1⟩] := by
  constructor
  · rw [(extractor_dedup_highest [("Alice", 12), ("alice", 31/2)] "ALICE").1]
    rw [if_pos ⟨("Alice", 12), by simp, by decide⟩]
  · have h1 : pyStrip "Alice" = "Alice" := by decide
    have h2 : pyStrip "alice" = "alice" := by decide
    have h3 : pyUpper "Alice" = "ALICE" := by decide
    have h4 : pyUpper "alice" = "ALICE" := by decide
    norm_num [extract_ratiovotes, dedupStep, round6, pyRound, setA, getA,
      sSort, sInsert, pctPrec, addRanks, h1, h2, h3, h4]

/-- C7: the extractor output is sorted by percentage descending, its
ranks are `1..N` in that order, and observations with equal
percentages keep the dedup dict's encounter order (the sort is
stable). -/
theorem extractor_output_ordering (found : List (String × ℚ)) :
    List.Pairwise (fun a b => b.percent ≤ a.percent) (extract_ratiovotes found) ∧
    (extract_ratiovotes found).map Obs.rank
      = List.range' 1 (extract_ratiovotes found).length ∧
    ∀ q : ℚ, ((extract_ratiovotes found).map toEntry).filter (fun e => e.percent = q)
      = ((found.foldl dedupStep []).map (·.2)).filter (fun e => e.percent = q) := by
  refine ⟨?_, ?_, ?_⟩
  · have hs := pairwise_sSort pctPrec_asymm pctPrec_negtrans
      ((found.foldl dedupStep []).map (·.2))
    have h1 : List.Pairwise (fun a b : Entry => ¬ pctPrec b a)
        ((extract_ratiovotes found).map toEntry) := by
      rw [extract_ratiovotes_eq, addRanks_toEntry]
      exact hs
    have h2 := List.pairwise_map.mp h1
    exact h2.imp fun h => not_lt.mp h
  · rw [extract_ratiovotes_eq, addRanks_ranks, addRanks_length]
  · intro q
    rw [extract_ratiovotes_eq, addRanks_toEntry]
    refine filter_sSort (fun a b ha hb => ?_) _
    have ha' : a.percent = q := of_decide_eq_true ha
    have hb' : b.percent = q := of_decide_eq_true hb
    exact not_lt.mpr (le_of_eq (ha' ▸ hb' ▸ rfl))

theorem extractor_output_ordering_witness :
    List.Pairwise (fun a b => b.percent ≤ a.percent)
      (extract_ratiovotes [("B", 10), ("A", 12)]) :=
  (extractor_output_ordering [("B", 10), ("A", 12)]).1

/-- The extractor never emits two observations with the same name:
names are distinct even before case normalization, since distinct
entries of the dedup dict have distinct uppercased keys.  This
discharges the name-distinctness hypothesis of the second-pass
identity for every observation list the poll loop ever feeds to the
calibrator. -/
theorem extract_names_nodup (found : List (String × ℚ)) :
    ((extract_ratiovotes found).map Obs.name).Nodup := by
  obtain ⟨hnd, hkey, _, _, _⟩ := dedup_inv found
  have h0 : (extract_ratiovotes found).map Obs.name
      = ((extract_ratiovotes found).map toEntry).map Entry.name := by
    rw [List.map_map]
    rfl
  rw [h0, extract_ratiovotes_eq, addRanks_toEntry]
  have hperm := (sSort_perm pctPrec ((found.foldl dedupStep []).map (·.2))).map Entry.name
  refine hperm.nodup_iff.mpr ?_
  have hup : ((((found.foldl dedupStep []).map (·.2)).map Entry.name).map pyUpper)
      = keysOf (found.foldl dedupStep []) := by
    rw [List.map_map, List.map_map]
    exact List.map_congr_left fun q hq => hkey q hq
  exact List.Nodup.of_map pyUpper (hup ▸ hnd)

/-- C10: when the implied total does not exceed the retained
`current_total` (and the observation names are distinct, as extractor
output always is), the second (recalculation) pass changes nothing:
the calibrator agrees with its one-pass variant on both the emitted
rows and the final state, because the naive estimate under the
unchanged total can never exceed the floor the first pass stored. -/
theorem calibrate_second_pass_identity (cd : List Obs) (s : CalState)
    (hnd : (cd.map Obs.name).Nodup) (himp : impliedTotal cd s ≤ s.current_total) :
    calibrate_and_calculate_votes cd s = calibrate_onePass cd s := by
  by_cases htp : 0 < totalPct cd
  · have hnlt : ¬ s.current_total < impliedTotal cd s := not_lt.mpr himp
    have htot : max s.current_total (impliedTotal cd s) = s.current_total :=
      max_eq_left himp
    have hfold : cd.foldl (pass2Step s.current_total)
        (pass1 cd s, writeVotes s.candidate_votes (pass1 cd s))
        = (pass1 cd s, writeVotes s.candidate_votes (pass1 cd s)) :=
      foldl_id _ _ _ fun c hc => pass2Step_id hnd hc
    simp [calibrate_and_calculate_votes, calibrate_onePass, htp, hnlt, htot, hfold]
  · simp [calibrate_and_calculate_votes, calibrate_onePass, htp]

theorem calibrate_second_pass_identity_witness :
    calibrate_and_calculate_votes [⟨"A", 50, 1⟩] ⟨1000, []⟩
      = calibrate_onePass [⟨"A", 50, 1⟩] ⟨1000, []⟩ :=
  calibrate_second_pass_identity [⟨"A", 50, 1⟩] ⟨1000, []⟩ (by simp)
    (by norm_num [impliedTotal, pass1, mkRow, setA, getA, getD, totalVotes,
      totalPct, naiveVotes, pyRound])

end YVote
